import Mathlib

/-!
Verification of the PanikNippelboard capture-and-export core against its
specification.  The Python source is shallowly embedded: bytes and audio
samples are `Nat`, files are association lists from names to contents, and
the stateful recorder methods become explicit state-passing functions.
External cryptographic primitives (AES-GCM, PBKDF2, RSA-OAEP from the
`cryptography` library) are modelled as ideal authenticated primitives,
as the spec treats them; every container-framing step around them is
translated directly from `src/crypto/encryption.py`,
`src/crypto/asymmetric.py` and `src/audio/recorder.py`.
-/

namespace PanikNippelboard

/-! ### Ring buffer

`AudioRecorder` keeps its rolling window in `deque(maxlen=ringbuffer_frames)`
(`recorder.py` line 56) and feeds it via `self.ringbuffer.extend(audio_data)`
in `_audio_callback` (line 127).  A bounded deque appends on the right and,
once full, silently evicts the leftmost (oldest) element; `extend` is the
element-wise iteration of that append.  `list(deque)` — the snapshot taken by
`save_clip` and `start_panic_mode` — lists elements oldest first. -/

/-- The last `n` elements of a list, in order (Python `l[len(l)-n:]`). -/
def lastN (n : Nat) (l : List Nat) : List Nat :=
  (l.reverse.take n).reverse

/-- One `deque.append` on a deque with `maxlen = cap`: append on the right,
and if the length now exceeds the capacity, drop the oldest element(s) from
the left.  (For `cap = 0` Python keeps the deque empty.) -/
def ringPush (cap : Nat) (buf : List Nat) (x : Nat) : List Nat :=
  if cap < (buf ++ [x]).length then
    (buf ++ [x]).drop ((buf ++ [x]).length - cap)
  else
    buf ++ [x]

/-- `deque.extend(xs)` on a deque with `maxlen = cap`: iterated append. -/
def ringExtend (cap : Nat) (buf : List Nat) (xs : List Nat) : List Nat :=
  xs.foldl (ringPush cap) buf

/-! ### Recorder state and effects

`AudioRecorder` (`recorder.py`) is embedded as explicit state passing.  The
state carries the fields the claims touch: the ring buffer, the running and
panic flags, the growing panic buffer, plus the externally visible effects —
the files written to durable storage and the metadata records inserted via
`add_recording`.  Audio samples are opaque `Nat` values: the recorder never
computes with sample values, it only moves them. -/

/-- Content of a file on durable storage, as far as the claims care:
a plaintext WAV of samples (`sf.write`), a plaintext converted audio file
(`_convert_audio` output), or an encrypted container of samples. -/
inductive FileContent where
  | plainWav (samples : List Nat)
  | plainAudio (samples : List Nat)
  | encrypted (samples : List Nat)
deriving DecidableEq, Repr

/-- One row inserted by `add_recording` (`utils/database.py`), restricted to
the fields the claims mention. -/
structure DbRecord where
  filename : String
  recordingType : String
  isEncrypted : Bool
deriving DecidableEq, Repr

/-- The mutable state of an `AudioRecorder` together with its externally
visible effects (files on disk, database rows). -/
structure RecorderState where
  sampleRate : Nat
  ringbufferFrames : Nat
  ringbuffer : List Nat
  isRunning : Bool
  isPanicMode : Bool
  panicBuffer : List Nat
  files : List (String × FileContent)
  dbRecords : List DbRecord
deriving DecidableEq, Repr

/-- `AudioRecorder.__init__` (`recorder.py` lines 36-72): reads the
configuration, sets `ringbuffer_frames = int(sample_rate *
ringbuffer_seconds)` and builds `deque(maxlen=ringbuffer_frames)`.  There is
no validation of any kind: construction is a total function and succeeds for
every configuration, including `sample_rate * ringbuffer_seconds = 0`
(Python accepts `deque(maxlen=0)` silently). -/
def recorderInit (sampleRate ringbufferSeconds : Nat) : RecorderState :=
  { sampleRate := sampleRate
    ringbufferFrames := sampleRate * ringbufferSeconds
    ringbuffer := []
    isRunning := false
    isPanicMode := false
    panicBuffer := []
    files := []
    dbRecords := [] }

/-- `AudioRecorder._audio_callback` (lines 111-131): extend the ring buffer
with the (already mono) block, and, when panic mode is active, also append
the block to the panic buffer. -/
def audioCallback (st : RecorderState) (audioData : List Nat) : RecorderState :=
  { st with
    ringbuffer := ringExtend st.ringbufferFrames st.ringbuffer audioData
    panicBuffer :=
      if st.isPanicMode then st.panicBuffer ++ audioData else st.panicBuffer }

/-- `AudioRecorder.start_panic_mode` (lines 229-240): no-op if already
active; otherwise seed the panic buffer with a snapshot of the ring buffer
and set the flag. -/
def startPanicMode (st : RecorderState) : RecorderState :=
  if st.isPanicMode then st
  else
    { st with isPanicMode := true, panicBuffer := st.ringbuffer }

/-- Delete a file from the store (`Path.unlink(missing_ok=True)`). -/
def removeFile (files : List (String × FileContent)) (name : String) :
    List (String × FileContent) :=
  files.filter (fun f => f.1 ≠ name)

/-- The `crypto.mode` value selecting hybrid encryption. -/
def modeAsymmetric : String := "asymmetric"

/-- The `recording_type` value written for clips. -/
def typeClip : String := "clip"

/-- The `recording_type` value written for panic recordings. -/
def typePanic : String := "panic"

/-- `AudioRecorder._capture_post_audio` (lines 204-227), data behaviour.
The loop polls the live ring buffer: while fewer than `targetFrames` samples
are collected it appends the LAST `min(bufferSize, targetFrames - collected)`
elements of the current ring-buffer contents (`list(self.ringbuffer)
[-chunk_size:]`), then sleeps.  Real time is abstracted into `trace`, the
sequence of ring-buffer contents observed at successive poll iterations;
exhausting the trace is the `post_seconds + 5` timeout. -/
def capturePostAudio (bufferSize targetFrames : Nat) :
    List (List Nat) → List Nat → List Nat
  | [], post => post
  | ring :: rest, post =>
    if targetFrames ≤ post.length then post
    else
      capturePostAudio bufferSize targetFrames rest
        (if 0 < ring.length then
          post ++ lastN (min bufferSize (targetFrames - post.length)) ring
        else post)

/-- `AudioRecorder.save_clip` (lines 133-202).  If the recorder is not
running it logs and returns `None` immediately — before generating a file
name, touching the filesystem, snapshotting the buffer, or inserting a
database row.  Otherwise: snapshot the ring buffer (`pre`), collect post
data (abstracted as `postData`, see `capturePostAudio`), concatenate,
write a temporary WAV, convert to the final format, delete the temporary,
and insert a `clip` metadata row. -/
def saveClip (st : RecorderState) (filename : String) (postData : List Nat) :
    Option String × RecorderState :=
  if !st.isRunning then (none, st)
  else
    let preData := st.ringbuffer
    let fullAudio := preData ++ postData
    let tempWav := "temp_" ++ filename ++ ".wav"
    let st1 := { st with
      files := st.files ++ [(tempWav, FileContent.plainWav fullAudio)] }
    let st2 := { st1 with
      files := st1.files ++ [(filename, FileContent.plainAudio fullAudio)] }
    let st3 := { st2 with files := removeFile st2.files tempWav }
    let st4 := { st3 with
      dbRecords := st3.dbRecords ++ [DbRecord.mk filename typeClip false] }
    (some filename, st4)

/-- `AudioRecorder.stop_panic_mode` (lines 242-335).  If panic mode is not
active, return `None`.  Otherwise clear the flag, take ownership of the
panic buffer, then — in source order — write the samples to a temporary
plaintext WAV (`sf.write`, line 277), convert them to a second temporary
plaintext audio file (line 281), and only then check the crypto mode and,
for the asymmetric mode, whether the public key file exists (line 291).
When the key is missing the function returns `None` at line 297 without
deleting the two temporary plaintext files (the `unlink` calls sit at lines
309-310, after encryption).  With a key (or in symmetric mode) it writes the
encrypted container, deletes both temporaries, and inserts a `panic`
metadata row. -/
def stopPanicMode (st : RecorderState) (filename : String)
    (cryptoMode : String) (publicKeyExists : Bool) :
    Option String × RecorderState :=
  if !st.isPanicMode then (none, st)
  else
    let panicData := st.panicBuffer
    let st1 := { st with isPanicMode := false, panicBuffer := [] }
    let tempWav := "temp_" ++ filename ++ ".wav"
    let tempAudio := "temp_" ++ filename ++ ".audio"
    let st2 := { st1 with
      files := st1.files ++ [(tempWav, FileContent.plainWav panicData)] }
    let st3 := { st2 with
      files := st2.files ++ [(tempAudio, FileContent.plainAudio panicData)] }
    if cryptoMode = modeAsymmetric ∧ !publicKeyExists then
      (none, st3)
    else
      let st4 := { st3 with
        files := st3.files ++ [(filename, FileContent.encrypted panicData)] }
      let st5 := { st4 with
        files := removeFile (removeFile st4.files tempWav) tempAudio }
      let st6 := { st5 with
        dbRecords := st5.dbRecords ++ [DbRecord.mk filename typePanic true] }
      (some filename, st6)

/-! ### Crypto layer

The container framing below is translated line by line from
`src/crypto/encryption.py` (`CryptoHandler.encrypt_file` / `decrypt_file`)
and `src/crypto/asymmetric.py` (`AsymmetricCrypto.encrypt_file` /
`decrypt_file`).  The primitives those functions call — AES-256-GCM, PBKDF2
and RSA-OAEP from the external `cryptography` library — are not repository
code; they are modelled as ideal primitives with exactly the interface shape
the source relies on: `AESGCM.encrypt` returns a ciphertext of the
plaintext's length with a 16-byte authentication tag appended, and
`AESGCM.decrypt` inverts it, refusing (returning `none`, the embedding of
the `InvalidTag` exception) whenever the container is not the authentic
encryption of some plaintext under that key and nonce.  The tag is an ideal
MAC: its first cell carries an injective fingerprint of (key, nonce,
ciphertext), idealizing GCM's computational authenticity the way the spec's
§4.4 and glossary assume it.  The KDF is idealized as collision-free in the
password.  Randomness (`os.urandom`, `AESGCM.generate_key`) is passed in as
parameters with the length facts the library guarantees. -/

/-- Injective encoding of a byte list into `Nat` (base-256 with a leading
sentinel); injective on lists whose entries are below 256. -/
def encodeBytes : List Nat → Nat
  | [] => 1
  | b :: bs => encodeBytes bs * 256 + b

/-- Keystream byte `i` of the ideal cipher under `key` and `nonce`. -/
def ksByte (key nonce : List Nat) (i : Nat) : Nat :=
  (encodeBytes key + encodeBytes nonce + i) % 256

namespace AESGCM

/-- Mask a plaintext with the keystream, starting at position `i`. -/
def mask (key nonce : List Nat) : Nat → List Nat → List Nat
  | _, [] => []
  | i, b :: bs => (b + ksByte key nonce i) % 256 :: mask key nonce (i + 1) bs

/-- Invert `mask`. -/
def unmask (key nonce : List Nat) : Nat → List Nat → List Nat
  | _, [] => []
  | i, b :: bs =>
    (b + (256 - ksByte key nonce i)) % 256 :: unmask key nonce (i + 1) bs

/-- Fingerprint of (key, nonce, ciphertext); injective when all three are
byte lists. -/
def tagCore (key nonce ct : List Nat) : Nat :=
  Nat.pair (encodeBytes key) (Nat.pair (encodeBytes nonce) (encodeBytes ct))

/-- The 16-byte authentication tag of the ideal AEAD. -/
def tag (key nonce ct : List Nat) : List Nat :=
  tagCore key nonce ct :: List.replicate 15 0

/-- `AESGCM(key).encrypt(nonce, plaintext, None)`: ciphertext with the
authentication tag appended. -/
def encrypt (key nonce pt : List Nat) : List Nat :=
  mask key nonce 0 pt ++ tag key nonce (mask key nonce 0 pt)

/-- `AESGCM(key).decrypt(nonce, data, None)`: split off the 16-byte tag,
verify it, and return the plaintext; `none` embeds the `InvalidTag`
exception raised on any mismatch. -/
def decrypt (key nonce data : List Nat) : Option (List Nat) :=
  if data.length < 16 then none
  else if data.drop (data.length - 16)
      = tag key nonce (data.take (data.length - 16)) then
    some (unmask key nonce 0 (data.take (data.length - 16)))
  else none

end AESGCM

namespace CryptoHandler

/-- `CryptoHandler.derive_key` (`encryption.py` lines 45-64): PBKDF2 over
the password and salt, idealized as an injective-in-the-password
combination of the two. -/
def derive_key (password salt : List Nat) : List Nat :=
  password ++ salt

/-- `CryptoHandler.encrypt_file` (`encryption.py` lines 66-112) on the
bytes it moves: generate `salt` (`os.urandom(salt_length)`) and `nonce`
(`os.urandom(12)`) — passed in here — derive the key, AES-GCM-encrypt, and
write `salt ‖ nonce ‖ ciphertext-with-tag`. -/
def encrypt_file (password salt nonce plaintext : List Nat) : List Nat :=
  salt ++ nonce ++ AESGCM.encrypt (derive_key password salt) nonce plaintext

/-- `CryptoHandler.decrypt_file` (`encryption.py` lines 114-161): read back
`salt` (`f.read(salt_length)`), `nonce` (`f.read(12)`) and the rest,
re-derive the key and AES-GCM-decrypt.  `some p` means the function wrote
exactly `p` to the output file and returned `True`; `none` means the
`InvalidTag` exception fired before the output file was ever opened, and
the function returned `False` having written nothing. -/
def decrypt_file (password : List Nat) (saltLength : Nat)
    (fileBytes : List Nat) : Option (List Nat) :=
  AESGCM.decrypt (derive_key password (fileBytes.take saltLength))
    ((fileBytes.drop saltLength).take 12)
    ((fileBytes.drop saltLength).drop 12)

end CryptoHandler

/-- Python `n.to_bytes(w, byteorder='big')`: `w` bytes, most significant
first (faithful for `n < 256 ^ w`). -/
def toBytesBE : Nat → Nat → List Nat
  | 0, _ => []
  | w + 1, n => toBytesBE w (n / 256) ++ [n % 256]

/-- Python `int.from_bytes(l, byteorder='big')`. -/
def fromBytesBE (l : List Nat) : Nat :=
  l.foldl (fun a b => a * 256 + b) 0

/-- RSA-OAEP wrapping of the AES key under the public key, idealized as an
invertible masking keyed by the public key. -/
def rsaOaepWrap (pub : Nat) (key : List Nat) : List Nat :=
  key.map (fun b => (b + pub) % 256)

/-- RSA-OAEP unwrapping with the private key; inverts `rsaOaepWrap` exactly
when the private key matches the public key that wrapped. -/
def rsaOaepUnwrap (priv : Nat) (wrapped : List Nat) : List Nat :=
  wrapped.map (fun b => (b + (256 - priv % 256)) % 256)

/-- The public half matched to a private key (`private_key.public_key()` in
`generate_keypair`); the ideal model identifies a key pair by a shared
value. -/
def publicKeyOf (priv : Nat) : Nat :=
  priv

namespace AsymmetricCrypto

/-- `AsymmetricCrypto.encrypt_file` (`asymmetric.py` lines 137-199) on the
bytes it moves: generate a fresh 256-bit AES key and a 12-byte nonce —
passed in here — AES-GCM-encrypt the plaintext, RSA-wrap the AES key under
the public key, and write `len(wrapped).to_bytes(4, 'big') ‖ wrapped ‖
nonce ‖ ciphertext-with-tag`. -/
def encrypt_file (pub : Nat) (aesKey nonce plaintext : List Nat) :
    List Nat :=
  toBytesBE 4 (rsaOaepWrap pub aesKey).length
    ++ rsaOaepWrap pub aesKey ++ nonce
    ++ AESGCM.encrypt aesKey nonce plaintext

/-- `AsymmetricCrypto.decrypt_file` (`asymmetric.py` lines 205-259): read
the 4-byte big-endian wrapped-key length, the wrapped key, the 12-byte
nonce and the rest; RSA-unwrap the AES key and AES-GCM-decrypt.  `some p` /
`none` embed success / failure as in `CryptoHandler.decrypt_file`. -/
def decrypt_file (priv : Nat) (fileBytes : List Nat) : Option (List Nat) :=
  let keyLength := fromBytesBE (fileBytes.take 4)
  let rest := fileBytes.drop 4
  AESGCM.decrypt (rsaOaepUnwrap priv (rest.take keyLength))
    ((rest.drop keyLength).take 12)
    ((rest.drop keyLength).drop 12)

end AsymmetricCrypto

/-- Flip bit `b` of the byte at position `i` (no-op when `i` is out of
range, matching `List.set`). -/
def flipBit (l : List Nat) (i b : Nat) : List Nat :=
  l.set i (l.getD i 0 ^^^ 2 ^ b)

/-- Concrete clip file name used by witnesses. -/
def clipFileName : String := "clip_20240101_000000.mp3"

/-- Concrete panic file name used by witnesses. -/
def panicFileName : String := "panic_20240101_000000.mp3.enc"

/-- Concrete running recorder in panic mode with five buffered panic
samples, used to evaluate `stopPanicMode` on the missing-key path. -/
def demoPanicState : RecorderState :=
  { sampleRate := 4
    ringbufferFrames := 8
    ringbuffer := [3, 1]
    isRunning := true
    isPanicMode := true
    panicBuffer := [3, 1, 4, 1, 5]
    files := []
    dbRecords := [] }

end PanikNippelboard

namespace PanikNippelboard

theorem lastN_length (n : Nat) (l : List Nat) :
    (lastN n l).length = min n l.length := by
  simp [lastN]

theorem lastN_of_length_le {n : Nat} {l : List Nat} (h : l.length ≤ n) :
    lastN n l = l := by
  unfold lastN
  rw [List.take_of_length_le (by simpa using h), List.reverse_reverse]

theorem lastN_eq_drop (n : Nat) (l : List Nat) :
    lastN n l = l.drop (l.length - n) := by
  unfold lastN
  rw [List.reverse_take]
  simp

theorem ringPush_eq_lastN (cap : Nat) (buf : List Nat) (x : Nat) :
    ringPush cap buf x = lastN cap (buf ++ [x]) := by
  unfold ringPush
  rw [lastN_eq_drop]
  split
  · rfl
  · next h =>
    rw [Nat.sub_eq_zero_of_le (Nat.le_of_not_lt h), List.drop_zero]

/-- Taking the last `n` of a list absorbs an inner "last `n`" of a prefix. -/
theorem lastN_lastN_append (n : Nat) (l m : List Nat) :
    lastN n (lastN n l ++ m) = lastN n (l ++ m) := by
  unfold lastN
  rw [List.reverse_append, List.reverse_reverse, List.reverse_append]
  congr 1
  rw [List.take_append_eq_append_take, List.take_append_eq_append_take,
    List.take_take]
  congr 1
  congr 1
  omega

theorem ringExtend_eq_lastN (cap : Nat) (xs : List Nat) :
    ∀ buf : List Nat, buf.length ≤ cap →
      ringExtend cap buf xs = lastN cap (buf ++ xs) := by
  induction xs with
  | nil =>
    intro buf h
    simp [ringExtend, lastN_of_length_le h]
  | cons x xs ih =>
    intro buf h
    have hstep : ringExtend cap buf (x :: xs)
        = ringExtend cap (ringPush cap buf x) xs := rfl
    rw [hstep, ih (ringPush cap buf x)
      (by rw [ringPush_eq_lastN, lastN_length]; exact Nat.min_le_left _ _)]
    rw [ringPush_eq_lastN, lastN_lastN_append]
    simp

/-- Claim C2: For every sequence of more than `capacity` pushed samples, a snapshot
of the ring buffer has length exactly `capacity` and equals the last
`capacity` pushed values in chronological (oldest-to-newest) order
(`xs.drop (xs.length - cap)`); moreover the buffer length never exceeds the
capacity after any number of pushes starting from the empty buffer. -/
theorem ringbuffer_snapshot_last_capacity (cap : Nat) (xs : List Nat)
    (h : cap < xs.length) :
    (ringExtend cap [] xs).length = cap
      ∧ ringExtend cap [] xs = xs.drop (xs.length - cap)
      ∧ ∀ ys : List Nat, (ringExtend cap [] ys).length ≤ cap := by
  have hlast : ∀ ys : List Nat, ringExtend cap [] ys = lastN cap ys := by
    intro ys
    rw [ringExtend_eq_lastN cap ys [] (Nat.zero_le cap)]
    rfl
  refine ⟨?_, ?_, ?_⟩
  · rw [hlast, lastN_length]
    omega
  · rw [hlast, lastN_eq_drop]
  · intro ys
    rw [hlast, lastN_length]
    exact Nat.min_le_left _ _

/-- Witness for C2 at a concrete input: capacity 3, five pushed samples. -/
theorem ringbuffer_snapshot_last_capacity_witness :
    (ringExtend 3 [] [10, 11, 12, 13, 14]).length = 3
      ∧ ringExtend 3 [] [10, 11, 12, 13, 14]
          = [10, 11, 12, 13, 14].drop ([10, 11, 12, 13, 14].length - 3)
      ∧ ∀ ys : List Nat, (ringExtend 3 [] ys).length ≤ 3 :=
  ringbuffer_snapshot_last_capacity 3 [10, 11, 12, 13, 14] (by decide)

theorem ksByte_lt (key nonce : List Nat) (i : Nat) :
    ksByte key nonce i < 256 :=
  Nat.mod_lt _ (by norm_num)

theorem AESGCM.length_mask (key nonce : List Nat) :
    ∀ (i : Nat) (pt : List Nat), (AESGCM.mask key nonce i pt).length = pt.length := by
  intro i pt
  induction pt generalizing i with
  | nil => rfl
  | cons b bs ih => simp [AESGCM.mask, ih]

theorem AESGCM.unmask_mask (key nonce : List Nat) :
    ∀ (i : Nat) (pt : List Nat), (∀ b ∈ pt, b < 256) →
      AESGCM.unmask key nonce i (AESGCM.mask key nonce i pt) = pt := by
  intro i pt
  induction pt generalizing i with
  | nil => intro _; rfl
  | cons b bs ih =>
    intro hb
    have hb0 : b < 256 := hb b (List.mem_cons_self b bs)
    have hk : ksByte key nonce i < 256 := ksByte_lt key nonce i
    simp only [AESGCM.mask, AESGCM.unmask]
    rw [ih (i + 1) (fun x hx => hb x (List.mem_cons_of_mem b hx))]
    congr 1
    omega

theorem AESGCM.length_tag (key nonce ct : List Nat) :
    (AESGCM.tag key nonce ct).length = 16 := by
  simp [AESGCM.tag]

theorem AESGCM.decrypt_encrypt (key nonce pt : List Nat)
    (hpt : ∀ b ∈ pt, b < 256) :
    AESGCM.decrypt key nonce (AESGCM.encrypt key nonce pt) = some pt := by
  have hlen : (AESGCM.encrypt key nonce pt).length = pt.length + 16 := by
    simp [AESGCM.encrypt, AESGCM.length_mask, AESGCM.length_tag]
  have hmask : (AESGCM.mask key nonce 0 pt).length = pt.length :=
    AESGCM.length_mask key nonce 0 pt
  have htake : (AESGCM.encrypt key nonce pt).take
      ((AESGCM.encrypt key nonce pt).length - 16) = AESGCM.mask key nonce 0 pt := by
    rw [hlen, Nat.add_sub_cancel, AESGCM.encrypt, ← hmask, List.take_left]
  have hdrop : (AESGCM.encrypt key nonce pt).drop
      ((AESGCM.encrypt key nonce pt).length - 16)
      = AESGCM.tag key nonce (AESGCM.mask key nonce 0 pt) := by
    rw [hlen, Nat.add_sub_cancel, AESGCM.encrypt, ← hmask, List.drop_left]
  rw [AESGCM.decrypt, if_neg (by omega)]
  rw [htake, hdrop, if_pos rfl, AESGCM.unmask_mask key nonce 0 pt hpt]

/-- Claim C3: Symmetric round-trip.  For every password, every salt of the
configured 32-byte length, every 12-byte nonce, and every byte string `p`,
decrypting the container produced by `CryptoHandler.encrypt_file` with the
same password yields exactly `p`. -/
theorem sym_encrypt_decrypt_roundtrip (password salt nonce p : List Nat)
    (hs : salt.length = 32) (hn : nonce.length = 12)
    (hp : ∀ b ∈ p, b < 256) :
    CryptoHandler.decrypt_file password 32
      (CryptoHandler.encrypt_file password salt nonce p) = some p := by
  unfold CryptoHandler.encrypt_file CryptoHandler.decrypt_file
  rw [List.append_assoc]
  rw [show (32 : Nat) = salt.length from hs.symm, List.take_left, List.drop_left]
  rw [show (12 : Nat) = nonce.length from hn.symm, List.take_left, List.drop_left]
  exact AESGCM.decrypt_encrypt _ nonce p hp

/-- Witness for C3 at a concrete input. -/
theorem sym_encrypt_decrypt_roundtrip_witness :
    CryptoHandler.decrypt_file [7, 8] 32
      (CryptoHandler.encrypt_file [7, 8] (List.replicate 32 1)
        (List.replicate 12 2) [5, 250, 0]) = some [5, 250, 0] :=
  sym_encrypt_decrypt_roundtrip [7, 8] (List.replicate 32 1)
    (List.replicate 12 2) [5, 250, 0] (by decide) (by decide) (by decide)

theorem take_append_len {l₁ : List Nat} (l₂ : List Nat) {n : Nat}
    (h : l₁.length = n) : (l₁ ++ l₂).take n = l₁ := by
  subst h
  exact List.take_left l₁ l₂

theorem drop_append_len {l₁ : List Nat} (l₂ : List Nat) {n : Nat}
    (h : l₁.length = n) : (l₁ ++ l₂).drop n = l₂ := by
  subst h
  exact List.drop_left l₁ l₂

theorem length_toBytesBE (w : Nat) : ∀ n : Nat, (toBytesBE w n).length = w := by
  induction w with
  | zero => intro n; rfl
  | succ w ih =>
    intro n
    simp [toBytesBE, ih]

theorem fromBytesBE_toBytesBE (w : Nat) :
    ∀ n : Nat, n < 256 ^ w → fromBytesBE (toBytesBE w n) = n := by
  induction w with
  | zero =>
    intro n h
    interval_cases n
    rfl
  | succ w ih =>
    intro n h
    have hdiv : n / 256 < 256 ^ w := by
      rw [Nat.div_lt_iff_lt_mul (by norm_num)]
      calc n < 256 ^ (w + 1) := h
        _ = 256 ^ w * 256 := by ring
    simp only [toBytesBE, fromBytesBE] at *
    rw [List.foldl_append]
    simp only [List.foldl_cons, List.foldl_nil]
    rw [ih (n / 256) hdiv]
    omega

theorem length_rsaOaepWrap (pub : Nat) (key : List Nat) :
    (rsaOaepWrap pub key).length = key.length := by
  simp [rsaOaepWrap]

theorem rsaOaepUnwrap_wrap (priv : Nat) (key : List Nat)
    (hk : ∀ b ∈ key, b < 256) :
    rsaOaepUnwrap priv (rsaOaepWrap (publicKeyOf priv) key) = key := by
  induction key with
  | nil => rfl
  | cons b bs ih =>
    have hb : b < 256 := hk b (List.mem_cons_self b bs)
    simp only [rsaOaepWrap, rsaOaepUnwrap, publicKeyOf, List.map_cons,
      List.map_map] at *
    rw [ih (fun x hx => hk x (List.mem_cons_of_mem b hx))]
    congr 1
    omega

/-- Claim C4: Hybrid round-trip.  For every matched RSA key pair, every fresh
32-byte AES key, every 12-byte nonce, and every byte string `p`, decrypting
the container produced by `AsymmetricCrypto.encrypt_file` under the public
key, using the private key, yields exactly `p`. -/
theorem hybrid_encrypt_decrypt_roundtrip (priv : Nat)
    (aesKey nonce p : List Nat) (hk : aesKey.length = 32)
    (hkb : ∀ b ∈ aesKey, b < 256) (hn : nonce.length = 12)
    (hp : ∀ b ∈ p, b < 256) :
    AsymmetricCrypto.decrypt_file priv
      (AsymmetricCrypto.encrypt_file (publicKeyOf priv) aesKey nonce p)
      = some p := by
  have hwl : (rsaOaepWrap (publicKeyOf priv) aesKey).length = 32 := by
    rw [length_rsaOaepWrap, hk]
  simp only [AsymmetricCrypto.encrypt_file, AsymmetricCrypto.decrypt_file]
  rw [List.append_assoc, List.append_assoc]
  rw [take_append_len _ (length_toBytesBE 4 _),
    drop_append_len _ (length_toBytesBE 4 _)]
  rw [fromBytesBE_toBytesBE 4 _ (by rw [hwl]; norm_num)]
  rw [take_append_len _ rfl, drop_append_len _ rfl]
  rw [take_append_len _ hn, drop_append_len _ hn]
  rw [rsaOaepUnwrap_wrap priv aesKey hkb]
  exact AESGCM.decrypt_encrypt aesKey nonce p hp

/-- Witness for C4 at a concrete input. -/
theorem hybrid_encrypt_decrypt_roundtrip_witness :
    AsymmetricCrypto.decrypt_file 1000
      (AsymmetricCrypto.encrypt_file (publicKeyOf 1000)
        (List.replicate 32 3) (List.replicate 12 4) [9, 0, 255])
      = some [9, 0, 255] :=
  hybrid_encrypt_decrypt_roundtrip 1000 (List.replicate 32 3)
    (List.replicate 12 4) [9, 0, 255] (by decide) (by decide) (by decide)
    (by decide)

/-- Claim C8: Symmetric container layout.  With the configured 32-byte salt and
the 12-byte GCM nonce, `CryptoHandler.encrypt_file` produces exactly
`salt ‖ nonce ‖ ciphertext ‖ tag` with a ciphertext of the plaintext's
length and a 16-byte authentication tag appended. -/
theorem sym_container_layout (password salt nonce p : List Nat)
    (hs : salt.length = 32) (hn : nonce.length = 12) :
    ∃ ct tagBytes : List Nat,
      CryptoHandler.encrypt_file password salt nonce p
          = salt ++ nonce ++ (ct ++ tagBytes)
        ∧ salt.length = 32 ∧ nonce.length = 12
        ∧ ct.length = p.length ∧ tagBytes.length = 16 := by
  refine ⟨AESGCM.mask (CryptoHandler.derive_key password salt) nonce 0 p,
    AESGCM.tag (CryptoHandler.derive_key password salt) nonce
      (AESGCM.mask (CryptoHandler.derive_key password salt) nonce 0 p),
    rfl, hs, hn, AESGCM.length_mask _ _ _ _, AESGCM.length_tag _ _ _⟩

/-- Witness for C8 at a concrete input. -/
theorem sym_container_layout_witness :
    ∃ ct tagBytes : List Nat,
      CryptoHandler.encrypt_file [7] (List.replicate 32 1)
          (List.replicate 12 2) [5, 6]
          = List.replicate 32 1 ++ List.replicate 12 2 ++ (ct ++ tagBytes)
        ∧ (List.replicate 32 1).length = 32
        ∧ (List.replicate 12 2).length = 12
        ∧ ct.length = [5, 6].length ∧ tagBytes.length = 16 :=
  sym_container_layout [7] (List.replicate 32 1) (List.replicate 12 2)
    [5, 6] (by decide) (by decide)

/-- Claim C7: Hybrid container layout.  `AsymmetricCrypto.encrypt_file` produces
exactly `wrapped-key-length ‖ wrapped-key ‖ nonce ‖ ciphertext ‖ tag`,
where the length field is 4 bytes reading back, big-endian, as the wrapped
key's length, the nonce occupies 12 bytes, the ciphertext has the
plaintext's length and carries a 16-byte authentication tag appended. -/
theorem hybrid_container_layout (pub : Nat) (aesKey nonce p : List Nat)
    (hk : aesKey.length = 32) (hn : nonce.length = 12) :
    ∃ wrapped ct tagBytes : List Nat,
      AsymmetricCrypto.encrypt_file pub aesKey nonce p
          = toBytesBE 4 wrapped.length ++ wrapped ++ nonce ++ (ct ++ tagBytes)
        ∧ (toBytesBE 4 wrapped.length).length = 4
        ∧ fromBytesBE (toBytesBE 4 wrapped.length) = wrapped.length
        ∧ nonce.length = 12
        ∧ ct.length = p.length ∧ tagBytes.length = 16 := by
  refine ⟨rsaOaepWrap pub aesKey, AESGCM.mask aesKey nonce 0 p,
    AESGCM.tag aesKey nonce (AESGCM.mask aesKey nonce 0 p),
    rfl, length_toBytesBE 4 _, fromBytesBE_toBytesBE 4 _ ?_, hn,
    AESGCM.length_mask _ _ _ _, AESGCM.length_tag _ _ _⟩
  rw [length_rsaOaepWrap, hk]
  norm_num

/-- Witness for C7 at a concrete input. -/
theorem hybrid_container_layout_witness :
    ∃ wrapped ct tagBytes : List Nat,
      AsymmetricCrypto.encrypt_file 9 (List.replicate 32 3)
          (List.replicate 12 4) [8]
          = toBytesBE 4 wrapped.length ++ wrapped
              ++ List.replicate 12 4 ++ (ct ++ tagBytes)
        ∧ (toBytesBE 4 wrapped.length).length = 4
        ∧ fromBytesBE (toBytesBE 4 wrapped.length) = wrapped.length
        ∧ (List.replicate 12 4).length = 12
        ∧ ct.length = [8].length ∧ tagBytes.length = 16 :=
  hybrid_container_layout 9 (List.replicate 32 3) (List.replicate 12 4)
    [8] (by decide) (by decide)

/-- Claim C10: `save_clip` called while the recorder is not running returns
`None` immediately: the returned state is the input state itself, so no
snapshot is taken, no file is written, no metadata record is inserted, and
the ring buffer, panic flag and panic buffer are all unchanged. -/
theorem save_clip_not_running (st : RecorderState) (filename : String)
    (postData : List Nat) (h : st.isRunning = false) :
    saveClip st filename postData = (none, st) := by
  simp [saveClip, h]

/-- Witness for C10 at a concrete input: a freshly constructed (hence not
running) recorder. -/
theorem save_clip_not_running_witness :
    saveClip (recorderInit 4 2) clipFileName [1, 2] = (none, recorderInit 4 2) :=
  save_clip_not_running (recorderInit 4 2) clipFileName [1, 2] (by decide)

/-- Claim C9, counterexample: construction with `sample_rate ×
ringbuffer_seconds = 0` does NOT fail.  `AudioRecorder.__init__` performs
no validation: it returns a recorder whose ring buffer has capacity 0, and
a subsequent audio callback is accepted silently, leaving the state
unchanged rather than raising any configuration error. -/
theorem recorder_init_zero_capacity_accepted :
    (recorderInit 0 45).ringbufferFrames = 0
      ∧ audioCallback (recorderInit 0 45) [7] = recorderInit 0 45 := by
  constructor
  · rfl
  · simp [audioCallback, recorderInit, ringExtend, ringPush]

/-- Claim C9, amended: if the configured capacity `sample_rate ×
ringbuffer_seconds` is zero, the recorder is constructed successfully (no
configuration error is raised) with a zero-capacity ring buffer, and every
audio callback leaves the ring buffer empty. -/
theorem recorder_init_zero_capacity (sampleRate ringbufferSeconds : Nat)
    (h : sampleRate * ringbufferSeconds = 0) :
    (recorderInit sampleRate ringbufferSeconds).ringbufferFrames = 0
      ∧ ∀ xs : List Nat,
        (audioCallback (recorderInit sampleRate ringbufferSeconds) xs).ringbuffer
          = [] := by
  constructor
  · exact h
  · intro xs
    have h0 : ringExtend 0 [] xs = [] := by
      rw [ringExtend_eq_lastN 0 xs [] (Nat.le_refl 0)]
      simp [lastN]
    simp only [audioCallback, recorderInit, h]
    exact h0

/-- Witness for the amended C9 at a concrete input. -/
theorem recorder_init_zero_capacity_witness :
    (recorderInit 0 45).ringbufferFrames = 0
      ∧ ∀ xs : List Nat,
        (audioCallback (recorderInit 0 45) xs).ringbuffer = [] :=
  recorder_init_zero_capacity 0 45 (by decide)

/-- Claim C1, demonstrated at the failing input: `stop_panic_mode` in asymmetric
mode with no public key configured returns `None` — but only after having
written the panic samples to two plaintext files (the temporary WAV of
`sf.write` and the `_convert_audio` output), which the early `return None`
at line 297 leaves on durable storage: the raw buffer is written in the
clear, contradicting the claim's hard requirement. -/
theorem stop_panic_no_key_leaves_plaintext :
    (stopPanicMode demoPanicState panicFileName modeAsymmetric false).1 = none
      ∧ ((stopPanicMode demoPanicState panicFileName modeAsymmetric
            false).2.files).map Prod.snd
          = [FileContent.plainWav [3, 1, 4, 1, 5],
             FileContent.plainAudio [3, 1, 4, 1, 5]] := by
  constructor
  · rfl
  · rfl

/-- Claim C6, demonstrated at the failing input: `_capture_post_audio` does not
collect each newly arriving sample exactly once.  Scenario: the ring buffer
(capacity 4) holds `[1, 2, 3]` when the snapshot is taken, a single new
sample `4` arrives, `buffer_size = 2` and the post target is 4 frames.  The
poll loop reads the LAST `min(buffer_size, remaining)` elements of the live
ring buffer on each iteration, so it collects `[3, 4, 3, 4]`: the
pre-snapshot sample `3` is duplicated from the snapshot (twice) and the one
genuinely new sample `4` is double-counted. -/
theorem capture_post_rereads_live_tail :
    capturePostAudio 2 4
        [ringExtend 4 [1, 2, 3] [4], ringExtend 4 [1, 2, 3] [4]] []
      = [3, 4, 3, 4] := by
  decide

theorem encodeBytes_pos (l : List Nat) : 1 ≤ encodeBytes l := by
  cases l with
  | nil => exact Nat.le_refl 1
  | cons b bs =>
    have := encodeBytes_pos bs
    simp only [encodeBytes]
    omega

theorem encodeBytes_inj : ∀ l₁ l₂ : List Nat, (∀ b ∈ l₁, b < 256) →
    (∀ b ∈ l₂, b < 256) → encodeBytes l₁ = encodeBytes l₂ → l₁ = l₂ := by
  intro l₁
  induction l₁ with
  | nil =>
    intro l₂ _ _ h
    cases l₂ with
    | nil => rfl
    | cons b bs =>
      exfalso
      have := encodeBytes_pos bs
      simp only [encodeBytes] at h
      omega
  | cons b bs ih =>
    intro l₂ h₁ h₂ h
    cases l₂ with
    | nil =>
      exfalso
      have := encodeBytes_pos bs
      simp only [encodeBytes] at h
      omega
    | cons c cs =>
      have hb : b < 256 := h₁ b (List.mem_cons_self b bs)
      have hc : c < 256 := h₂ c (List.mem_cons_self c cs)
      simp only [encodeBytes] at h
      have hbc : b = c ∧ encodeBytes bs = encodeBytes cs := by omega
      rw [hbc.1, ih cs (fun x hx => h₁ x (List.mem_cons_of_mem b hx))
        (fun x hx => h₂ x (List.mem_cons_of_mem c hx)) hbc.2]

theorem AESGCM.mask_lt (key nonce : List Nat) :
    ∀ (i : Nat) (pt : List Nat), ∀ y ∈ AESGCM.mask key nonce i pt, y < 256 := by
  intro i pt
  induction pt generalizing i with
  | nil => intro y hy; cases hy
  | cons b bs ih =>
    intro y hy
    rcases List.mem_cons.mp hy with h | h
    · subst h
      exact Nat.mod_lt _ (by norm_num)
    · exact ih (i + 1) y h

theorem xor_two_pow_ne (x b : Nat) : x ^^^ 2 ^ b ≠ x := by
  intro h
  have h2 : x ^^^ (x ^^^ 2 ^ b) = x ^^^ x := by rw [h]
  rw [← Nat.xor_assoc, Nat.xor_self, Nat.zero_xor] at h2
  exact absurd h2 (Nat.two_pow_pos b).ne'

/-- If the authentication tags computed from two ciphertexts agree, the
ciphertexts agree (injectivity of the ideal MAC in its ciphertext). -/
theorem AESGCM.tag_inj_ct (key nonce ct ct' : List Nat)
    (h₁ : ∀ b ∈ ct, b < 256) (h₂ : ∀ b ∈ ct', b < 256)
    (h : AESGCM.tag key nonce ct = AESGCM.tag key nonce ct') : ct = ct' := by
  simp only [AESGCM.tag, AESGCM.tagCore, List.cons.injEq] at h
  have hp := (Nat.pair_eq_pair.mp h.1).2
  have hq := (Nat.pair_eq_pair.mp hp).2
  exact encodeBytes_inj ct ct' h₁ h₂ hq

/-- Modifying any single position of an authentic AEAD container (either a
ciphertext byte, kept below 256, or a tag cell) makes `AESGCM.decrypt`
refuse. -/
theorem AESGCM.decrypt_set_ne (key nonce p : List Nat) (k v : Nat)
    (hk : k < (AESGCM.encrypt key nonce p).length)
    (hv : v ≠ (AESGCM.encrypt key nonce p).getD k 0)
    (hvb : k < (AESGCM.mask key nonce 0 p).length → v < 256) :
    AESGCM.decrypt key nonce ((AESGCM.encrypt key nonce p).set k v)
      = none := by
  have hm : (AESGCM.mask key nonce 0 p).length = p.length :=
    AESGCM.length_mask key nonce 0 p
  have htg : (AESGCM.tag key nonce (AESGCM.mask key nonce 0 p)).length = 16 :=
    AESGCM.length_tag key nonce _
  have hlen : (AESGCM.encrypt key nonce p).length = p.length + 16 := by
    simp [AESGCM.encrypt, hm, htg]
  rcases Nat.lt_or_ge k (AESGCM.mask key nonce 0 p).length with hkm | hkm
  · -- the modified position lies in the ciphertext
    have hset : (AESGCM.encrypt key nonce p).set k v
        = (AESGCM.mask key nonce 0 p).set k v
            ++ AESGCM.tag key nonce (AESGCM.mask key nonce 0 p) := by
      rw [AESGCM.encrypt]
      exact List.set_append_left _ _ hkm
    have hsetlen : ((AESGCM.mask key nonce 0 p).set k v).length = p.length := by
      rw [List.length_set, hm]
    rw [hset, AESGCM.decrypt, if_neg (by rw [List.length_append, hsetlen, htg]; omega)]
    rw [List.length_append, hsetlen, htg, Nat.add_sub_cancel,
      take_append_len _ hsetlen, drop_append_len _ hsetlen]
    rw [if_neg, ]
    intro hcontra
    have hctbytes : ∀ b ∈ AESGCM.mask key nonce 0 p, b < 256 :=
      AESGCM.mask_lt key nonce 0 p
    have hsetbytes : ∀ b ∈ (AESGCM.mask key nonce 0 p).set k v, b < 256 := by
      intro y hy
      rcases List.mem_or_eq_of_mem_set hy with h | h
      · exact hctbytes y h
      · rw [h]; exact hvb hkm
    have heq : AESGCM.mask key nonce 0 p = (AESGCM.mask key nonce 0 p).set k v :=
      AESGCM.tag_inj_ct key nonce _ _ hctbytes hsetbytes hcontra
    have hgetD : ((AESGCM.mask key nonce 0 p).set k v).getD k 0 = v := by
      rw [List.getD_eq_getElem _ _ (by rw [List.length_set]; exact hkm)]
      exact List.getElem_set_self (by rw [List.length_set]; exact hkm)
    have hgetD0 : (AESGCM.encrypt key nonce p).getD k 0
        = (AESGCM.mask key nonce 0 p).getD k 0 := by
      rw [AESGCM.encrypt]
      exact List.getD_append _ _ _ _ hkm
    rw [← heq] at hgetD
    exact hv (by rw [hgetD0, ← hgetD])
  · -- the modified position lies in the tag
    have hktag : k - (AESGCM.mask key nonce 0 p).length < 16 := by omega
    have hset : (AESGCM.encrypt key nonce p).set k v
        = AESGCM.mask key nonce 0 p
            ++ (AESGCM.tag key nonce (AESGCM.mask key nonce 0 p)).set
                (k - (AESGCM.mask key nonce 0 p).length) v := by
      rw [AESGCM.encrypt]
      exact List.set_append_right _ _ hkm
    have hsetlen : ((AESGCM.tag key nonce (AESGCM.mask key nonce 0 p)).set
        (k - (AESGCM.mask key nonce 0 p).length) v).length = 16 := by
      rw [List.length_set, htg]
    have hktag' : k - p.length < 16 := by omega
    rw [hset, AESGCM.decrypt]
    simp only [List.length_append, List.length_set, hm, htg]
    rw [if_neg (by omega), Nat.add_sub_cancel,
      take_append_len _ hm, drop_append_len _ hm]
    rw [if_neg]
    intro hcontra
    have hgetD : ((AESGCM.tag key nonce (AESGCM.mask key nonce 0 p)).set
        (k - p.length) v).getD (k - p.length) 0 = v := by
      rw [List.getD_eq_getElem _ _ (by rw [List.length_set, htg]; exact hktag')]
      exact List.getElem_set_self (by rw [List.length_set, htg]; exact hktag')
    have hgetD0 : (AESGCM.encrypt key nonce p).getD k 0
        = (AESGCM.tag key nonce (AESGCM.mask key nonce 0 p)).getD
            (k - p.length) 0 := by
      rw [AESGCM.encrypt, List.getD_append_right _ _ _ _ hkm, hm]
    rw [hcontra] at hgetD
    exact hv (by rw [hgetD0, ← hgetD])

/-- Decrypting an authentic AEAD container under a different key refuses. -/
theorem AESGCM.decrypt_wrong_key (key keyX nonce p : List Nat)
    (hk : ∀ b ∈ key, b < 256) (hkX : ∀ b ∈ keyX, b < 256)
    (hne : keyX ≠ key) :
    AESGCM.decrypt keyX nonce (AESGCM.encrypt key nonce p) = none := by
  have hlen : (AESGCM.encrypt key nonce p).length = p.length + 16 := by
    simp [AESGCM.encrypt, AESGCM.length_mask, AESGCM.length_tag]
  have hmask : (AESGCM.mask key nonce 0 p).length = p.length :=
    AESGCM.length_mask key nonce 0 p
  have htake : (AESGCM.encrypt key nonce p).take
      ((AESGCM.encrypt key nonce p).length - 16)
      = AESGCM.mask key nonce 0 p := by
    rw [hlen, Nat.add_sub_cancel, AESGCM.encrypt, take_append_len _ hmask]
  have hdrop : (AESGCM.encrypt key nonce p).drop
      ((AESGCM.encrypt key nonce p).length - 16)
      = AESGCM.tag key nonce (AESGCM.mask key nonce 0 p) := by
    rw [hlen, Nat.add_sub_cancel, AESGCM.encrypt, drop_append_len _ hmask]
  rw [AESGCM.decrypt, if_neg (by omega), htake, hdrop, if_neg]
  intro hcontra
  simp only [AESGCM.tag, AESGCM.tagCore, List.cons.injEq] at hcontra
  have := (Nat.pair_eq_pair.mp hcontra.1).1
  exact hne (encodeBytes_inj keyX key hkX hk this.symm)

/-- Claim C5: Tamper detection and wrong-credential refusal for the symmetric
container.  For every symmetric container produced by
`CryptoHandler.encrypt_file` and every single-bit modification of its
ciphertext or tag bytes (positions at or past `salt_length + 12 = 44`), and
likewise for decryption under any wrong password, `decrypt_file` fails
closed, returning `none`: the `InvalidTag` exception fires before the
output file is opened, so no altered or partial plaintext is ever written. -/
theorem sym_tamper_and_wrong_password_fail_closed
    (password salt nonce p : List Nat)
    (hpw : ∀ b ∈ password, b < 256) (hsb : ∀ b ∈ salt, b < 256)
    (hs : salt.length = 32) (hn : nonce.length = 12) :
    (∀ i b : Nat, 44 ≤ i →
        i < (CryptoHandler.encrypt_file password salt nonce p).length →
        b < 8 →
        CryptoHandler.decrypt_file password 32
          (flipBit (CryptoHandler.encrypt_file password salt nonce p) i b)
          = none)
      ∧ ∀ passwordX : List Nat, passwordX ≠ password →
          (∀ b ∈ passwordX, b < 256) →
          CryptoHandler.decrypt_file passwordX 32
            (CryptoHandler.encrypt_file password salt nonce p) = none := by
  have hmask : (AESGCM.mask (CryptoHandler.derive_key password salt) nonce
      0 p).length = p.length := AESGCM.length_mask _ _ 0 p
  have hel : (AESGCM.encrypt (CryptoHandler.derive_key password salt) nonce
      p).length = p.length + 16 := by
    simp [AESGCM.encrypt, AESGCM.length_mask, AESGCM.length_tag]
  have h44 : (salt ++ nonce).length = 44 := by
    rw [List.length_append, hs, hn]
  constructor
  · intro i b hi hilen hb
    have hclen : (CryptoHandler.encrypt_file password salt nonce p).length
        = 44 + (p.length + 16) := by
      simp only [CryptoHandler.encrypt_file, List.length_append, hs, hn, hel]
    rw [hclen] at hilen
    rw [flipBit, CryptoHandler.encrypt_file,
      List.set_append_right _ _ (by rw [h44]; omega),
      CryptoHandler.decrypt_file, List.append_assoc,
      take_append_len _ hs, drop_append_len _ hs,
      take_append_len _ hn, drop_append_len _ hn,
      List.getD_append_right _ _ _ _ (by rw [h44]; omega), h44]
    apply AESGCM.decrypt_set_ne
    · omega
    · exact xor_two_pow_ne _ b
    · intro hictm
      have hx : (AESGCM.encrypt (CryptoHandler.derive_key password salt)
          nonce p).getD (i - 44) 0 < 256 := by
        rw [AESGCM.encrypt, List.getD_append _ _ _ _ (by omega),
          List.getD_eq_getElem _ _ (by omega)]
        exact AESGCM.mask_lt _ _ 0 p _ (List.getElem_mem _)
      exact Nat.xor_lt_two_pow hx (Nat.pow_lt_pow_right (by norm_num) hb)
  · intro passwordX hne hpwX
    rw [CryptoHandler.encrypt_file, CryptoHandler.decrypt_file,
      List.append_assoc,
      take_append_len _ hs, drop_append_len _ hs,
      take_append_len _ hn, drop_append_len _ hn]
    apply AESGCM.decrypt_wrong_key
    · intro y hy
      rcases List.mem_append.mp hy with h | h
      · exact hpw y h
      · exact hsb y h
    · intro y hy
      rcases List.mem_append.mp hy with h | h
      · exact hpwX y h
      · exact hsb y h
    · intro hcontra
      exact hne (List.append_cancel_right hcontra)

/-- Witness for C5 at a concrete input: a bit flip in the ciphertext, a bit
flip in the tag, and a wrong password, all refused. -/
theorem sym_tamper_and_wrong_password_fail_closed_witness :
    CryptoHandler.decrypt_file [7] 32
        (flipBit (CryptoHandler.encrypt_file [7] (List.replicate 32 1)
          (List.replicate 12 2) [9, 9]) 44 0) = none
      ∧ CryptoHandler.decrypt_file [7] 32
          (flipBit (CryptoHandler.encrypt_file [7] (List.replicate 32 1)
            (List.replicate 12 2) [9, 9]) 50 3) = none
      ∧ CryptoHandler.decrypt_file [8] 32
          (CryptoHandler.encrypt_file [7] (List.replicate 32 1)
            (List.replicate 12 2) [9, 9]) = none := by
  have h := sym_tamper_and_wrong_password_fail_closed [7]
    (List.replicate 32 1) (List.replicate 12 2) [9, 9]
    (by decide) (by decide) (by decide) (by decide)
  have hlen : (CryptoHandler.encrypt_file [7] (List.replicate 32 1)
      (List.replicate 12 2) [9, 9]).length = 62 := by decide
  exact ⟨h.1 44 0 (by omega) (by omega) (by omega),
    h.1 50 3 (by omega) (by omega) (by omega),
    h.2 [8] (by decide) (by decide)⟩

end PanikNippelboard
